import Mathlib

/-
Verification of the equity-tracker accounting core against its specification.

The Lean definitions below are a shallow embedding of the Python source:
  app/services/fifo_engine.py         (Lot Engine)
  app/services/allocation_manager.py  (Allocation Ledger)
  app/services/corporate_actions.py   (Corporate Action Detector)
  app/services/reconciliation.py      (Reconciliation Engine)
Python ints are modelled as Int, Decimal values as Rat, and dates as Int
day numbers (Python date subtraction .days becomes Int subtraction).
-/

set_option autoImplicit false

namespace EquityTracker

/-- Embeds BuyLot from fifo_engine.py: a buy lot in the FIFO queue. -/
structure BuyLot where
  tradeDate : Int
  quantity : Int
  price : Rat
  remainingQty : Int
  tradeId : Nat
  deriving Repr, DecidableEq

/-- Embeds MatchedLot from fifo_engine.py: a matched sell-to-buy lot. -/
structure MatchedLot where
  entryDate : Int
  exitDate : Int
  quantity : Int
  buyPrice : Rat
  sellPrice : Rat
  buyValue : Rat
  sellValue : Rat
  profit : Rat
  holdingDays : Int
  taxTerm : String
  buyTradeId : Nat
  sellTradeId : Nat
  deriving Repr, DecidableEq

/-- Embeds the mutable state of class FIFOEngine from fifo_engine.py. -/
structure FIFOEngine where
  buyLots : List BuyLot
  matchedLots : List MatchedLot
  totalBought : Int
  totalSold : Int
  deriving Repr, DecidableEq

/-- FIFOEngine.__init__: empty queue and counters. -/
def FIFOEngine.init : FIFOEngine := ⟨[], [], 0, 0⟩

/-- Sum of remaining quantities over a lot list. -/
def sumRemaining (lots : List BuyLot) : Int :=
  (lots.map (fun l => l.remainingQty)).sum

/-- FIFOEngine.get_available_quantity: sum of remaining_qty over buy_lots. -/
def FIFOEngine.availableQuantity (e : FIFOEngine) : Int :=
  sumRemaining e.buyLots

/-- FIFOEngine.process_buy: append a lot with remaining_qty = quantity to the
tail of the queue and bump _total_bought. (The Python method also returns the
created lot; only the state matters to the properties proved here.) -/
def FIFOEngine.processBuy (e : FIFOEngine) (tradeDate : Int) (quantity : Int)
    (price : Rat) (tradeId : Nat) : FIFOEngine :=
  { e with
    buyLots := e.buyLots ++ [⟨tradeDate, quantity, price, quantity, tradeId⟩]
    totalBought := e.totalBought + quantity }

/-- One MatchedLot record as built in the body of FIFOEngine.process_sell. -/
def mkMatchedLot (lot : BuyLot) (matchedQty : Int) (tradeDate : Int)
    (price : Rat) (sellTradeId : Nat) : MatchedLot :=
  let buyValue := matchedQty * lot.price
  let sellValue := matchedQty * price
  let holdingDays := tradeDate - lot.tradeDate
  { entryDate := lot.tradeDate
    exitDate := tradeDate
    quantity := matchedQty
    buyPrice := lot.price
    sellPrice := price
    buyValue := buyValue
    sellValue := sellValue
    profit := sellValue - buyValue
    holdingDays := holdingDays
    taxTerm := if holdingDays > 365 then "LTCG" else "STCG"
    buyTradeId := lot.tradeId
    sellTradeId := sellTradeId }

/-- The while loop of FIFOEngine.process_sell: consume min(remaining_sell,
lot.remaining_qty) from the head lot, emit one MatchedLot per consumption,
pop the head when exhausted. In the branch where the head lot is not
exhausted, matched_qty = remaining_sell (min of the two with the second
strictly larger), so the Python loop guard remaining_sell > 0 fails on the
next iteration and the loop exits with the updated head kept in place;
the recursion returns directly in that branch for the same reason. -/
def matchLoop (tradeDate : Int) (price : Rat) (sellTradeId : Nat) :
    List BuyLot → Int → List BuyLot × List MatchedLot
  | [], _ => ([], [])
  | lot :: rest, remainingSell =>
    if remainingSell ≤ 0 then (lot :: rest, [])
    else
      let matchedQty := min remainingSell lot.remainingQty
      let ml := mkMatchedLot lot matchedQty tradeDate price sellTradeId
      if lot.remainingQty - matchedQty = 0 then
        let res := matchLoop tradeDate price sellTradeId rest (remainingSell - matchedQty)
        (res.1, ml :: res.2)
      else
        ({ lot with remainingQty := lot.remainingQty - matchedQty } :: rest, [ml])

/-- The error raised by FIFOEngine.process_sell (a ValueError in Python),
named InsufficientHoldings in the specification's error taxonomy. -/
inductive FifoError where
  | insufficientHoldings : FifoError
  deriving Repr, DecidableEq

/-- FIFOEngine.process_sell: raise when quantity exceeds available holdings
(the raise happens before any mutation), otherwise run the matching loop,
append the matched lots to matched_lots and bump _total_sold. -/
def FIFOEngine.processSell (e : FIFOEngine) (tradeDate : Int) (quantity : Int)
    (price : Rat) (tradeId : Nat) : Except FifoError (FIFOEngine × List MatchedLot) :=
  let available := e.availableQuantity
  if quantity > available then
    .error .insufficientHoldings
  else
    let res := matchLoop tradeDate price tradeId e.buyLots quantity
    .ok ({ buyLots := res.1
           matchedLots := e.matchedLots ++ res.2
           totalBought := e.totalBought
           totalSold := e.totalSold + quantity }, res.2)

/-- A transaction fed to the engine, as in FIFOEngine.from_trades
(trade_type buy or sell, already in replay order). -/
inductive Op where
  | buy (tradeDate : Int) (quantity : Int) (price : Rat) (tradeId : Nat)
  | sell (tradeDate : Int) (quantity : Int) (price : Rat) (tradeId : Nat)
  deriving Repr, DecidableEq

/-- FIFOEngine.from_trades semantics: process each trade in order; a
process_sell error is re-raised and aborts the run. -/
def runStrict (e : FIFOEngine) : List Op → Except FifoError FIFOEngine
  | [] => .ok e
  | .buy d q p t :: ops => runStrict (e.processBuy d q p t) ops
  | .sell d q p t :: ops =>
    match e.processSell d q p t with
    | .error err => .error err
    | .ok res => runStrict res.1 ops

/-- One replay step of AllocationManager._get_fifo_engine: buys are applied,
a sell whose process_sell raises ValueError is swallowed (except ValueError:
pass), leaving the engine state as it was. -/
def stepSkip (e : FIFOEngine) : Op → FIFOEngine
  | .buy d q p t => e.processBuy d q p t
  | .sell d q p t =>
    match e.processSell d q p t with
    | .error _ => e
    | .ok res => res.1

/-- AllocationManager._get_fifo_engine replay over the ordered trade list. -/
def runSkip (e : FIFOEngine) (ops : List Op) : FIFOEngine :=
  ops.foldl stepSkip e

/-- Quantity of a transaction. -/
def Op.qty : Op → Int
  | .buy _ q _ _ => q
  | .sell _ q _ _ => q

/-- Total quantity bought over a transaction list. -/
def opsBought : List Op → Int
  | [] => 0
  | .buy _ q _ _ :: ops => q + opsBought ops
  | .sell _ _ _ _ :: ops => opsBought ops

/-- Total quantity sold over a transaction list. -/
def opsSold : List Op → Int
  | [] => 0
  | .buy _ _ _ _ :: ops => opsSold ops
  | .sell _ q _ _ :: ops => q + opsSold ops

/-- Total quantity disposed: sum of matched quantities over the realized
disposal records. -/
def sumMatchedQty (mls : List MatchedLot) : Int :=
  (mls.map (fun m => m.quantity)).sum

/-- The worked example of the specification: buy 100 @ 50 on day 0, buy 50 @
55 on day 30, sell 120 @ 60 on day 400. -/
def opsC4 : List Op :=
  [Op.buy 0 100 50 1, Op.buy 30 50 55 2, Op.sell 400 120 60 3]

/-- The engine state the worked example must produce. -/
def engC4Result : FIFOEngine :=
  { buyLots := [⟨30, 50, 55, 30, 2⟩]
    matchedLots := [⟨0, 400, 100, 50, 60, 5000, 6000, 1000, 400, "LTCG", 1, 3⟩,
                    ⟨30, 400, 20, 55, 60, 1100, 1200, 100, 370, "LTCG", 2, 3⟩]
    totalBought := 150
    totalSold := 120 }

/-- Concrete engine used by witnesses: lots of 3 and 2 units. -/
def engTwoLots : FIFOEngine :=
  (FIFOEngine.init.processBuy 0 3 50 1).processBuy 10 2 60 2

/-- Concrete engine used by witnesses: one 10-unit lot bought on day 0. -/
def engOneLot : FIFOEngine :=
  FIFOEngine.init.processBuy 0 10 50 1

/-- Realized record of selling the full 10-unit lot exactly 365 days after
purchase. -/
def matched365 : MatchedLot :=
  ⟨0, 365, 10, 50, 60, 500, 600, 100, 365, "STCG", 1, 2⟩

/-- Realized record of selling 4 units of the 10-unit lot 366 days after
purchase. -/
def matched366 : MatchedLot :=
  ⟨0, 366, 4, 50, 60, 200, 240, 40, 366, "LTCG", 1, 2⟩

/-- COMMON_SPLIT_RATIOS from corporate_actions.py (the same table appears as
ReconciliationService.COMMON_SPLIT_RATIOS in reconciliation.py). -/
def commonSplitRatios : List Int := [2, 3, 4, 5, 10, 20, 25, 50, 100]

/-- Embeds the CorporateAction model fields used by the detector code. -/
structure CorporateAction where
  stockId : Int
  actionType : String
  recordDate : Option Int
  ratioFrom : Int
  ratioTo : Int
  oldPrice : Option Rat
  newPrice : Option Rat
  detectedAutomatically : Bool
  applied : Bool
  deriving Repr, DecidableEq

/-- Python int() applied to a rational: truncation toward zero. -/
def pyInt (q : Rat) : Int := if 0 ≤ q then ⌊q⌋ else ⌈q⌉

/-- One iteration of the loop in
CorporateActionService.adjust_quantity_for_splits: if the split has a
record_date after the buy date, scale quantity by ratio_to/ratio_from
(truncated to int by Python int()) and divide price by the same factor. -/
def adjustStep (buyDate : Int) (acc : Int × Rat) (split : CorporateAction) : Int × Rat :=
  match split.recordDate with
  | some rd =>
    if buyDate < rd then
      let splitRatio : Rat := (split.ratioTo : Rat) / (split.ratioFrom : Rat)
      (pyInt ((acc.1 : Rat) * splitRatio), acc.2 / splitRatio)
    else acc
  | none => acc

/-- CorporateActionService.adjust_quantity_for_splits: fold the per-split
adjustment over the split list. -/
def adjustQuantityForSplits (originalQty : Int) (originalPrice : Rat)
    (buyDate : Int) (splits : List CorporateAction) : Int × Rat :=
  splits.foldl (adjustStep buyDate) (originalQty, originalPrice)

/-- The action_data dictionary passed to
CorporateActionService.save_corporate_action. -/
structure ActionData where
  stockId : Int
  actionType : String
  ratioFrom : Int
  ratioTo : Int
  detectedDate : Option Int
  oldPrice : Option Rat
  newPrice : Option Rat
  deriving Repr, DecidableEq

/-- The filter_by key used by save_corporate_action to look for an existing
record: same stock, action type and from:to ratio. -/
def caKeyMatches (a : ActionData) (c : CorporateAction) : Bool :=
  decide (c.stockId = a.stockId) && decide (c.actionType = a.actionType) &&
    decide (c.ratioFrom = a.ratioFrom) && decide (c.ratioTo = a.ratioTo)

/-- The CorporateAction row save_corporate_action inserts when no existing
record matches (detected_automatically=True, applied=False). -/
def newCorporateAction (a : ActionData) : CorporateAction :=
  ⟨a.stockId, a.actionType, a.detectedDate, a.ratioFrom, a.ratioTo,
    a.oldPrice, a.newPrice, true, false⟩

/-- CorporateActionService.save_corporate_action over a database modelled as
the list of rows in insertion order: return the first existing record with
the same (stock, type, ratio) key, otherwise append a new row. -/
def saveCorporateAction (db : List CorporateAction) (a : ActionData) :
    List CorporateAction × CorporateAction :=
  match db.find? (caKeyMatches a) with
  | some existing => (db, existing)
  | none => (db ++ [newCorporateAction a], newCorporateAction a)

/-- Number of rows in the database carrying a given (stock, type, ratio) key. -/
def caKeyCount (db : List CorporateAction) (a : ActionData) : Nat :=
  (db.filter (caKeyMatches a)).length

/-- Witness data: a detected 1:10 split proposal for stock 7. -/
def splitSaveData : ActionData := ⟨7, "split", 1, 10, some 100, some 500, some 50⟩

/-- Witness data: the corporate-action list used by the C6 witness. -/
def splitsC6 : List CorporateAction :=
  [⟨7, "split", some 100, 1, 10, none, none, true, false⟩]

/-- Embeds the Allocation model fields used by allocation_manager.py; the
list of allocations is always the one of the manager's (stock, account)
pair, so those two columns are left implicit. -/
structure Allocation where
  ownerId : Int
  goalId : Int
  quantity : Int
  buyPrice : Rat
  buyDate : Option Int
  deriving Repr, DecidableEq

/-- The error taxonomy of allocation_manager.py (AllocationError and its
subclasses). -/
inductive AllocError where
  | insufficientUnits
  | invalidOwner
  | invalidGoal
  | generic
  deriving Repr, DecidableEq

/-- AllocationManager.get_allocated_units: SUM of quantities (0 for empty). -/
def allocatedUnits (st : List Allocation) : Int :=
  (st.map (fun a => a.quantity)).sum

/-- The loop of AllocationManager.get_weighted_average_price: walk the
remaining lots in FIFO order, first skipping lots_to_skip already-allocated
units, then accumulating take_qty × price until the requested quantity is
satisfied. Returns (total_value, total_qty, earliest_date). -/
def wapLoop (lotsToSkip remaining : Int) (totalValue : Rat) (totalQty : Int)
    (earliest : Option Int) : List BuyLot → Rat × Int × Option Int
  | [] => (totalValue, totalQty, earliest)
  | lot :: rest =>
    let skip := if 0 < lotsToSkip then min lotsToSkip lot.remainingQty else 0
    let availableInLot := lot.remainingQty - skip
    if availableInLot ≤ 0 then
      wapLoop (lotsToSkip - skip) remaining totalValue totalQty earliest rest
    else
      let takeQty := min remaining availableInLot
      let totalValue2 := totalValue + takeQty * lot.price
      let totalQty2 := totalQty + takeQty
      let earliest2 := match earliest with
        | none => some lot.tradeDate
        | some d => some d
      if remaining - takeQty ≤ 0 then (totalValue2, totalQty2, earliest2)
      else wapLoop (lotsToSkip - skip) (remaining - takeQty) totalValue2 totalQty2 earliest2 rest

/-- AllocationManager.get_weighted_average_price: run the loop over the lots
with remaining quantity (get_current_holdings_as_lots); raise
InsufficientUnits when no units were matched, else return
(total_value / total_qty, earliest date). -/
def getWeightedAveragePrice (e : FIFOEngine) (allocated quantity : Int) :
    Except AllocError (Rat × Option Int) :=
  let lots := e.buyLots.filter (fun l => 0 < l.remainingQty)
  let res := wapLoop allocated quantity 0 0 none lots
  if res.2.1 = 0 then .error .insufficientUnits
  else .ok (res.1 / (res.2.1 : Rat), res.2.2)

/-- AllocationManager.create_allocation: validate owner existence, then goal
existence, then quantity against available units
(max(0, holdings - allocated)), then compute the FIFO weighted price and
append the new Allocation row. Owners and goals are modelled by the lists of
existing ids the lookup calls would find. -/
def createAllocation (owners goals : List Int) (e : FIFOEngine)
    (st : List Allocation) (ownerId goalId quantity : Int) :
    Except AllocError (List Allocation × Allocation) :=
  if ownerId ∈ owners then
    if goalId ∈ goals then
      if quantity > max 0 (e.availableQuantity - allocatedUnits st) then
        .error .insufficientUnits
      else
        match getWeightedAveragePrice e (allocatedUnits st) quantity with
        | .error err => .error err
        | .ok res =>
          let alloc : Allocation := ⟨ownerId, goalId, quantity, res.1, res.2⟩
          .ok (st ++ [alloc], alloc)
    else .error .invalidGoal
  else .error .invalidOwner

/-- The allocation table after a create_allocation call: unchanged when the
call raises (the db.session.add/commit happens only after all checks). -/
def tryCreateAllocation (owners goals : List Int) (e : FIFOEngine)
    (st : List Allocation) (ownerId goalId quantity : Int) : List Allocation :=
  match createAllocation owners goals e st ownerId goalId quantity with
  | .error _ => st
  | .ok res => res.1

/-- AllocationManager.update_allocation restricted to its quantity branch:
the allocation (addressed by position, modelling its id) must exist, the new
quantity must be positive and at most holdings - allocated + own quantity. -/
def updateAllocationQuantity (e : FIFOEngine) (st : List Allocation)
    (idx : Nat) (newQuantity : Int) : Except AllocError (List Allocation) :=
  match st.get? idx with
  | none => .error .generic
  | some alloc =>
    if newQuantity ≤ 0 then .error .generic
    else if newQuantity > e.availableQuantity - allocatedUnits st + alloc.quantity then
      .error .insufficientUnits
    else .ok (st.set idx { alloc with quantity := newQuantity })

/-- The loop of AllocationManager.sync_with_holdings over allocations in
buy-date order: delete a whole allocation when its quantity is at most the
remaining excess, otherwise reduce it by the excess and stop. Returns
(surviving allocations, adjusted count, deleted count). -/
def syncLoop : List Allocation → Int → List Allocation × Nat × Nat
  | [], _ => ([], 0, 0)
  | a :: rest, excess =>
    if excess ≤ 0 then (a :: rest, 0, 0)
    else if a.quantity ≤ excess then
      let res := syncLoop rest (excess - a.quantity)
      (res.1, res.2.1, res.2.2 + 1)
    else
      ({ a with quantity := a.quantity - excess } :: rest, 1, 0)

/-- AllocationManager.sync_with_holdings: no-op when total allocated is at
most total holdings, else absorb the excess through the loop. The input list
is the get_allocations() query result, ordered by buy date. -/
def syncWithHoldings (holdings : Int) (st : List Allocation) :
    List Allocation × Nat × Nat :=
  if allocatedUnits st ≤ holdings then (st, 0, 0)
  else syncLoop st (allocatedUnits st - holdings)

/-- Witness engine holding 120 units. -/
def eng120 : FIFOEngine := FIFOEngine.init.processBuy 0 120 50 9

/-- Witness allocation list: 70 + 80 units allocated, oldest first. -/
def stC3 : List Allocation :=
  [⟨1, 2, 70, 50, some 0⟩, ⟨1, 3, 80, 50, some 5⟩]

/-- A tradebook buy trade as seen by the reconciliation detectors (only the
quantity and price fields enter the detection arithmetic; the identifying
fields feed the report payloads, which are not modelled). -/
structure TradebookEntry where
  quantity : Int
  price : Rat
  deriving Repr, DecidableEq

/-- A Tax P&L report entry as consumed by the reconciliation detectors. -/
structure TaxPnlEntry where
  symbol : String
  isin : Option String
  quantity : Int
  buyValue : Rat
  deriving Repr, DecidableEq

/-- The corporate-action proposal dictionary built by
ReconciliationService.detect_stock_split / detect_bonus_issue. -/
structure SplitAction where
  actionType : String
  symbol : String
  isin : Option String
  ratioFrom : Int
  ratioTo : Int
  oldPrice : Rat
  newPrice : Rat
  detectedAutomatically : Bool
  confidence : String
  deriving Repr, DecidableEq

/-- The Discrepancy record of reconciliation.py (the tradebook_data and
taxpnl_data payload dictionaries and the human-readable message are
reporting detail and are not modelled). -/
structure Discrepancy where
  symbol : String
  isin : Option String
  discrepancyType : String
  detectedAction : Option SplitAction
  severity : String
  deriving Repr, DecidableEq

/-- ReconciliationService._values_match: relative comparison
abs(v1-v2)/max(abs v1, abs v2) ≤ tolerance, with zero handling. -/
def valuesMatch (v1 v2 tolerance : Rat) : Bool :=
  if v1 = 0 ∧ v2 = 0 then true
  else if v1 = 0 ∨ v2 = 0 then false
  else decide (|v1 - v2| / max |v1| |v2| ≤ tolerance)

/-- The implied per-unit report price computed in detect_stock_split:
buy_value / quantity, 0 when the quantity is zero. -/
def pnlPriceOf (pnl : TaxPnlEntry) : Rat :=
  if pnl.quantity ≠ 0 then pnl.buyValue / (pnl.quantity : Rat) else 0

/-- The ratio loop of detect_stock_split: first common ratio whose quantity
ratio lies strictly within 0.01 and whose implied new price deviates from
old_price/ratio by strictly less than 2% of old_price. -/
def splitRatioScan (tbPrice pnlPrice qtyRatio : Rat) : List Int → Option Int
  | [] => none
  | r :: rest =>
    if |qtyRatio - (r : Rat)| < 1/100 then
      if |pnlPrice - tbPrice / (r : Rat)| / tbPrice < 2/100 then some r
      else splitRatioScan tbPrice pnlPrice qtyRatio rest
    else splitRatioScan tbPrice pnlPrice qtyRatio rest

/-- ReconciliationService.detect_stock_split. -/
def detectStockSplit (tb : TradebookEntry) (pnl : TaxPnlEntry) : Option SplitAction :=
  if valuesMatch ((tb.quantity : Rat) * tb.price) pnl.buyValue (2/100) = true then
    if tb.quantity = 0 then none
    else
      match splitRatioScan tb.price (pnlPriceOf pnl)
          ((pnl.quantity : Rat) / (tb.quantity : Rat)) commonSplitRatios with
      | none => none
      | some r =>
        some ⟨"split", pnl.symbol, pnl.isin, 1, r, tb.price, pnlPriceOf pnl, true,
          if |(pnl.quantity : Rat) / (tb.quantity : Rat) - (r : Rat)| < 1/1000
          then "high" else "medium"⟩
  else none

/-- The canonical bonus-ratio table of detect_bonus_issue:
(bonus_num, bonus_den, expected quantity multiplier). -/
def bonusRatios : List (Int × Int × Rat) := [(1, 1, 2), (1, 2, 3/2), (2, 1, 3), (3, 1, 4)]

/-- The ratio loop of detect_bonus_issue. -/
def bonusScan (qtyRatio : Rat) : List (Int × Int × Rat) → Option (Int × Int)
  | [] => none
  | (num, den, expected) :: rest =>
    if |qtyRatio - expected| < 1/100 then some (num, den)
    else bonusScan qtyRatio rest

/-- ReconciliationService.detect_bonus_issue. -/
def detectBonusIssue (tb : TradebookEntry) (pnl : TaxPnlEntry) : Option SplitAction :=
  if valuesMatch ((tb.quantity : Rat) * tb.price) pnl.buyValue (2/100) = true then
    if pnl.quantity ≤ tb.quantity then none
    else
      match bonusScan ((pnl.quantity : Rat) / (tb.quantity : Rat)) bonusRatios with
      | none => none
      | some nd =>
        some ⟨"bonus", pnl.symbol, pnl.isin, nd.2, nd.1, tb.price,
          pnl.buyValue / (pnl.quantity : Rat), true, "medium"⟩
  else none

/-- Outcome of one report entry against its found candidate trade in
ReconciliationService.reconcile (the branch starting at the
matching_trade case). -/
inductive PairResult where
  | matchedPair : PairResult
  | action (a : SplitAction) (d : Discrepancy) : PairResult
  | mismatch (d : Discrepancy) : PairResult
  deriving Repr, DecidableEq

/-- The reconcile branch for an entry with a found candidate: a perfect
quantity and 1%-value match is recorded as matched; otherwise a
detect_stock_split hit, then a detect_bonus_issue hit, emits the proposal
together with a corporate_action discrepancy of severity info; otherwise a
quantity_mismatch or price_mismatch warning discrepancy. -/
def classifyCandidatePair (tb : TradebookEntry) (pnl : TaxPnlEntry) : PairResult :=
  if tb.quantity = pnl.quantity ∧
      valuesMatch ((tb.quantity : Rat) * tb.price) pnl.buyValue (1/100) = true then
    .matchedPair
  else
    match detectStockSplit tb pnl with
    | some a => .action a ⟨pnl.symbol, pnl.isin, "corporate_action", some a, "info"⟩
    | none =>
      match detectBonusIssue tb pnl with
      | some a => .action a ⟨pnl.symbol, pnl.isin, "corporate_action", some a, "info"⟩
      | none =>
        .mismatch ⟨pnl.symbol, pnl.isin,
          if tb.quantity ≠ pnl.quantity then "quantity_mismatch" else "price_mismatch",
          none, "warning"⟩

/-- Modelled from the claim's wording, for refinement comparison only: the
two total values match within 2% relative tolerance, the quantity ratio is
within 0.01 of a common table ratio, and the implied new price is within 2%
of oldPrice/ratio (tolerance read relative to oldPrice/ratio, as the claim
states it). -/
def specSplitCondition (tb : TradebookEntry) (pnl : TaxPnlEntry) : Prop :=
  valuesMatch ((tb.quantity : Rat) * tb.price) pnl.buyValue (2/100) = true ∧
  ∃ r ∈ commonSplitRatios,
    |(pnl.quantity : Rat) / (tb.quantity : Rat) - (r : Rat)| ≤ 1/100 ∧
    |pnlPriceOf pnl - tb.price / (r : Rat)| ≤ (2/100) * (tb.price / (r : Rat))

/-- Counterexample tradebook candidate: 1 unit at price 100. -/
def tbC8 : TradebookEntry := ⟨1, 100⟩

/-- Counterexample report entry: 10 units with buy value 102.04, so the
implied new price is 10.204. -/
def pnlC8 : TaxPnlEntry := ⟨"NESTLEIND", none, 10, 2551/25⟩

/-- The proposal detect_stock_split produces on the counterexample pair. -/
def splitC8 : SplitAction := ⟨"split", "NESTLEIND", none, 1, 10, 100, 2551/250, true, "high"⟩

theorem sumRemaining_nil : sumRemaining [] = 0 := rfl

theorem sumRemaining_cons (l : BuyLot) (ls : List BuyLot) :
    sumRemaining (l :: ls) = l.remainingQty + sumRemaining ls := by
  simp [sumRemaining]

theorem sumRemaining_append (l1 l2 : List BuyLot) :
    sumRemaining (l1 ++ l2) = sumRemaining l1 + sumRemaining l2 := by
  simp [sumRemaining]

theorem sumMatchedQty_nil : sumMatchedQty [] = 0 := rfl

theorem sumMatchedQty_cons (m : MatchedLot) (ms : List MatchedLot) :
    sumMatchedQty (m :: ms) = m.quantity + sumMatchedQty ms := by
  simp [sumMatchedQty]

theorem sumMatchedQty_append (m1 m2 : List MatchedLot) :
    sumMatchedQty (m1 ++ m2) = sumMatchedQty m1 + sumMatchedQty m2 := by
  simp [sumMatchedQty]

theorem mkMatchedLot_quantity (lot : BuyLot) (mq d : Int) (p : Rat) (t : Nat) :
    (mkMatchedLot lot mq d p t).quantity = mq := rfl

/-- The matching loop consumes exactly the requested quantity: when
0 ≤ remainingSell ≤ sum of remaining, the surviving lots hold the old sum
minus remainingSell and the matched records sum to remainingSell. -/
theorem matchLoop_spec (d : Int) (p : Rat) (t : Nat) :
    ∀ (lots : List BuyLot) (rs : Int), 0 ≤ rs → rs ≤ sumRemaining lots →
      sumRemaining (matchLoop d p t lots rs).1 = sumRemaining lots - rs ∧
      sumMatchedQty (matchLoop d p t lots rs).2 = rs := by
  intro lots
  induction lots with
  | nil =>
    intro rs h0 hle
    rw [sumRemaining_nil] at hle
    have hz : rs = 0 := le_antisymm hle h0
    subst hz
    simp [matchLoop, sumRemaining_nil, sumMatchedQty_nil]
  | cons lot rest ih =>
    intro rs h0 hle
    rw [sumRemaining_cons] at hle
    by_cases hrs : rs ≤ 0
    · have hz : rs = 0 := le_antisymm hrs h0
      subst hz
      simp [matchLoop, sumRemaining_cons, sumMatchedQty_nil]
    · by_cases hex : lot.remainingQty - min rs lot.remainingQty = 0
      · have hmin : min rs lot.remainingQty = lot.remainingQty := by omega
        have h0' : 0 ≤ rs - min rs lot.remainingQty := by omega
        have hle' : rs - min rs lot.remainingQty ≤ sumRemaining rest := by omega
        obtain ⟨ha, hb⟩ := ih (rs - min rs lot.remainingQty) h0' hle'
        rw [matchLoop]
        simp only [if_neg hrs, if_pos hex]
        refine ⟨?_, ?_⟩
        · rw [ha, sumRemaining_cons]; omega
        · rw [sumMatchedQty_cons, mkMatchedLot_quantity, hb]; omega
      · have hmin : min rs lot.remainingQty = rs := by omega
        rw [matchLoop]
        simp only [if_neg hrs, if_neg hex]
        refine ⟨?_, ?_⟩
        · rw [sumRemaining_cons, sumRemaining_cons]; simp; omega
        · rw [sumMatchedQty_cons, mkMatchedLot_quantity, sumMatchedQty_nil]; omega

/-- process_sell on a satisfiable request succeeds and moves exactly the
requested quantity from the lot queue into the matched records. -/
theorem processSell_of_le (e : FIFOEngine) (d q : Int) (p : Rat) (t : Nat)
    (h0 : 0 ≤ q) (hle : q ≤ e.availableQuantity) :
    ∃ e2 matched, e.processSell d q p t = .ok (e2, matched) ∧
      e2.availableQuantity = e.availableQuantity - q ∧
      e2.totalBought = e.totalBought ∧
      e2.totalSold = e.totalSold + q ∧
      sumMatchedQty e2.matchedLots = sumMatchedQty e.matchedLots + q := by
  obtain ⟨ha, hb⟩ := matchLoop_spec d p t e.buyLots q h0 hle
  refine ⟨⟨(matchLoop d p t e.buyLots q).1, e.matchedLots ++ (matchLoop d p t e.buyLots q).2,
      e.totalBought, e.totalSold + q⟩, (matchLoop d p t e.buyLots q).2, ?_, ?_, rfl, rfl, ?_⟩
  · rw [FIFOEngine.processSell]
    simp only [if_neg (not_lt.mpr hle)]
  · exact ha
  · rw [sumMatchedQty_append, hb]

theorem availableQuantity_processBuy (e : FIFOEngine) (d q : Int) (p : Rat) (t : Nat) :
    (e.processBuy d q p t).availableQuantity = e.availableQuantity + q := by
  simp [FIFOEngine.processBuy, FIFOEngine.availableQuantity, sumRemaining_append,
    sumRemaining_cons, sumRemaining_nil]

/-- Induction core for the available-quantity accounting identity. -/
theorem runStrict_invariant (ops : List Op) :
    ∀ e e2 : FIFOEngine, (∀ op ∈ ops, 0 < op.qty) → runStrict e ops = .ok e2 →
      e.availableQuantity = e.totalBought - e.totalSold →
      sumMatchedQty e.matchedLots = e.totalSold →
      0 ≤ e.availableQuantity →
      e2.availableQuantity = e2.totalBought - e2.totalSold ∧
        sumMatchedQty e2.matchedLots = e2.totalSold ∧
        0 ≤ e2.availableQuantity ∧
        e2.totalBought = e.totalBought + opsBought ops ∧
        e2.totalSold = e.totalSold + opsSold ops := by
  induction ops with
  | nil =>
    intro e e2 _ hrun h1 h2 h3
    rw [runStrict] at hrun
    cases hrun
    exact ⟨h1, h2, h3, by rw [opsBought]; omega, by rw [opsSold]; omega⟩
  | cons op ops ih =>
    intro e e2 hq hrun h1 h2 h3
    cases op with
    | buy d q p t =>
      rw [runStrict] at hrun
      have hmem : ∀ o ∈ ops, 0 < Op.qty o := fun o ho => hq o (List.mem_cons_of_mem _ ho)
      have hb := availableQuantity_processBuy e d q p t
      have := ih (e.processBuy d q p t) e2 hmem hrun
        (by rw [hb]; simp [FIFOEngine.processBuy]; omega)
        (by simp [FIFOEngine.processBuy]; exact h2)
        (by rw [hb]; have : 0 < q := hq _ (List.mem_cons_self _ _); omega)
      obtain ⟨a, b, c, hd, he⟩ := this
      refine ⟨a, b, c, ?_, ?_⟩
      · rw [opsBought]; simp [FIFOEngine.processBuy] at hd; omega
      · rw [opsSold]; simp [FIFOEngine.processBuy] at he; omega
    | sell d q p t =>
      rw [runStrict] at hrun
      have hqpos : 0 < q := hq _ (List.mem_cons_self _ _)
      have hmem : ∀ o ∈ ops, 0 < Op.qty o := fun o ho => hq o (List.mem_cons_of_mem _ ho)
      by_cases hgt : q > e.availableQuantity
      · rw [FIFOEngine.processSell] at hrun
        simp only [if_pos hgt] at hrun
        exact Except.noConfusion hrun
      · obtain ⟨e', matched, hok, ha, hbt, hts, hm⟩ :=
          processSell_of_le e d q p t (le_of_lt hqpos) (not_lt.mp hgt)
        rw [hok] at hrun
        have := ih e' e2 hmem hrun (by omega) (by rw [hm, h2]; omega) (by omega)
        obtain ⟨a, b, c, hd, he⟩ := this
        refine ⟨a, b, c, ?_, ?_⟩
        · rw [opsBought]; omega
        · rw [opsSold]; omega

/-- C1: for every valid transaction sequence (positive quantities, each sell
satisfiable so the strict run succeeds), availableQuantity equals total
bought minus total sold; the engine's realized disposals are exactly the
sells (their matched quantities sum to the total sold, the only disposal
channel), and the available quantity is never negative. -/
theorem c1_available_quantity (ops : List Op) (e : FIFOEngine)
    (hq : ∀ op ∈ ops, 0 < op.qty)
    (h : runStrict FIFOEngine.init ops = .ok e) :
    e.availableQuantity = opsBought ops - opsSold ops ∧
    e.totalBought = opsBought ops ∧
    e.totalSold = opsSold ops ∧
    sumMatchedQty e.matchedLots = opsSold ops ∧
    0 ≤ e.availableQuantity := by
  obtain ⟨a, b, c, hd, he⟩ := runStrict_invariant ops FIFOEngine.init e hq h rfl rfl le_rfl
  simp only [FIFOEngine.init] at hd he
  refine ⟨by omega, by omega, by omega, by omega, c⟩

/-- C1 witness: the identity evaluated on a concrete valid sequence. -/
theorem c1_witness :
    engC4Result.availableQuantity = opsBought opsC4 - opsSold opsC4 ∧
    engC4Result.totalBought = opsBought opsC4 ∧
    engC4Result.totalSold = opsSold opsC4 ∧
    sumMatchedQty engC4Result.matchedLots = opsSold opsC4 ∧
    0 ≤ engC4Result.availableQuantity :=
  c1_available_quantity opsC4 engC4Result (by decide)
    (by norm_num [opsC4, engC4Result, runStrict, FIFOEngine.init, FIFOEngine.processBuy,
      FIFOEngine.processSell, FIFOEngine.availableQuantity, sumRemaining, matchLoop,
      mkMatchedLot, Int.min_def])

/-- C2: process_sell fails (with the InsufficientHoldings error) exactly when
the requested quantity exceeds the sum of remaining quantities across all
lots, and a failing call leaves the engine state unchanged (the caught-error
step returns the engine as it was). -/
theorem c2_process_sell_failure (e : FIFOEngine) (d q : Int) (p : Rat) (t : Nat) :
    ((∃ err, e.processSell d q p t = .error err) ↔ sumRemaining e.buyLots < q) ∧
    (sumRemaining e.buyLots < q → e.processSell d q p t = .error .insufficientHoldings) ∧
    (sumRemaining e.buyLots < q → stepSkip e (.sell d q p t) = e) := by
  by_cases hgt : e.availableQuantity < q
  · have herr : e.processSell d q p t = .error .insufficientHoldings := by
      rw [FIFOEngine.processSell]
      simp only [if_pos hgt]
    exact ⟨⟨fun _ => hgt, fun _ => ⟨_, herr⟩⟩, fun _ => herr,
      fun _ => by simp [stepSkip, herr]⟩
  · have hok : e.processSell d q p t =
        .ok (⟨(matchLoop d p t e.buyLots q).1,
              e.matchedLots ++ (matchLoop d p t e.buyLots q).2,
              e.totalBought, e.totalSold + q⟩, (matchLoop d p t e.buyLots q).2) := by
      rw [FIFOEngine.processSell]
      simp only [if_neg hgt]
    refine ⟨⟨fun ⟨err, herr⟩ => ?_, fun hlt => absurd hlt hgt⟩,
      fun hlt => absurd hlt hgt, fun hlt => absurd hlt hgt⟩
    rw [hok] at herr
    exact Except.noConfusion herr

/-- C2 witness: selling 6 from holdings of 5 fails with InsufficientHoldings
and the skip-runner leaves the engine unchanged. -/
theorem c2_witness :
    engTwoLots.processSell 20 6 70 3 = .error .insufficientHoldings ∧
    stepSkip engTwoLots (.sell 20 6 70 3) = engTwoLots := by
  have h := c2_process_sell_failure engTwoLots 20 6 70 3
  exact ⟨h.2.1 (by decide), h.2.2 (by decide)⟩

/-- C4: buy 100 @ 50 on day 0, buy 50 @ 55 on day 30, sell 120 @ 60 on day
400 yields exactly the two long-term realized records (100 units at buy
price 50 held 400 days; 20 units at buy price 55 held 370 days) and leaves
30 units at price 55. -/
theorem c4_fifo_example :
    runStrict FIFOEngine.init opsC4 = .ok engC4Result := by
  norm_num [opsC4, engC4Result, runStrict, FIFOEngine.init, FIFOEngine.processBuy,
    FIFOEngine.processSell, FIFOEngine.availableQuantity, sumRemaining, matchLoop,
    mkMatchedLot, Int.min_def]

theorem taxTerm_ite_iff (hd : Int) :
    ((if hd > 365 then "LTCG" else "STCG") = "LTCG" ↔ 365 < hd) := by
  by_cases h : 365 < hd
  · rw [if_pos h]
    exact ⟨fun _ => h, fun _ => rfl⟩
  · rw [if_neg h]
    exact ⟨fun hc => absurd hc (by decide), fun hc => absurd hc h⟩

/-- Every matched record emitted by the matching loop has exit date equal to
the sell date, holding days = exit - entry, and the 365-day tax-term rule. -/
theorem matchLoop_mem (d : Int) (p : Rat) (t : Nat) :
    ∀ (lots : List BuyLot) (rs : Int) (ml : MatchedLot),
      ml ∈ (matchLoop d p t lots rs).2 →
      ml.exitDate = d ∧ ml.holdingDays = ml.exitDate - ml.entryDate ∧
        ml.taxTerm = (if ml.holdingDays > 365 then "LTCG" else "STCG") := by
  intro lots
  induction lots with
  | nil =>
    intro rs ml hm
    simp [matchLoop] at hm
  | cons lot rest ih =>
    intro rs ml hm
    rw [matchLoop] at hm
    by_cases hrs : rs ≤ 0
    · simp [if_pos hrs] at hm
    · simp only [if_neg hrs] at hm
      by_cases hex : lot.remainingQty - min rs lot.remainingQty = 0
      · simp only [if_pos hex, List.mem_cons] at hm
        cases hm with
        | inl heq => subst heq; exact ⟨rfl, rfl, rfl⟩
        | inr hmem => exact ih _ ml hmem
      · simp only [if_neg hex, List.mem_cons, List.not_mem_nil, or_false] at hm
        subst hm
        exact ⟨rfl, rfl, rfl⟩

/-- C5: every matched disposal is classified long-term iff its holding period
in days exceeds 365, where the holding period is exit date minus entry date;
in particular (witness) a sale exactly 365 days after purchase is short-term
and one 366 days after purchase is long-term. -/
theorem c5_tax_term (e : FIFOEngine) (d q : Int) (p : Rat) (t : Nat)
    (e2 : FIFOEngine) (matched : List MatchedLot) (ml : MatchedLot)
    (h : e.processSell d q p t = .ok (e2, matched)) (hm : ml ∈ matched) :
    (ml.taxTerm = "LTCG" ↔ 365 < ml.holdingDays) ∧
    ml.holdingDays = ml.exitDate - ml.entryDate := by
  rw [FIFOEngine.processSell] at h
  by_cases hgt : e.availableQuantity < q
  · simp only [if_pos hgt] at h
    exact Except.noConfusion h
  · simp only [if_neg hgt, Except.ok.injEq, Prod.mk.injEq] at h
    obtain ⟨-, hmatch⟩ := h
    subst hmatch
    obtain ⟨-, hdays, hterm⟩ := matchLoop_mem d p t e.buyLots q ml hm
    rw [hterm, hdays]
    exact ⟨taxTerm_ite_iff _, rfl⟩

/-- C5 witness: the 365-day boundary evaluated concretely; a 365-day holding
is not long-term (STCG) and a 366-day holding is. -/
theorem c5_witness :
    (((matched365.taxTerm = "LTCG") ↔ 365 < matched365.holdingDays) ∧
      matched365.holdingDays = matched365.exitDate - matched365.entryDate) ∧
    (((matched366.taxTerm = "LTCG") ↔ 365 < matched366.holdingDays) ∧
      matched366.holdingDays = matched366.exitDate - matched366.entryDate) ∧
    matched365.taxTerm = "STCG" ∧ matched366.taxTerm = "LTCG" := by
  refine ⟨?_, ?_, by decide, by decide⟩
  · exact c5_tax_term engOneLot 365 10 60 2 ⟨[], [matched365], 10, 10⟩ [matched365]
      matched365
      (by norm_num [engOneLot, FIFOEngine.init, FIFOEngine.processBuy, FIFOEngine.processSell,
        FIFOEngine.availableQuantity, sumRemaining, matchLoop, mkMatchedLot, matched365,
        Int.min_def])
      (by decide)
  · exact c5_tax_term engOneLot 366 4 60 2 ⟨[⟨0, 10, 50, 6, 1⟩], [matched366], 10, 4⟩
      [matched366] matched366
      (by norm_num [engOneLot, FIFOEngine.init, FIFOEngine.processBuy, FIFOEngine.processSell,
        FIFOEngine.availableQuantity, sumRemaining, matchLoop, mkMatchedLot, matched366,
        Int.min_def])
      (by decide)

theorem pyInt_intCast (m : Int) : pyInt (m : Rat) = m := by
  rw [pyInt]
  by_cases h : (0 : Rat) ≤ (m : Rat)
  · rw [if_pos h, Int.floor_intCast]
  · rw [if_neg h, Int.ceil_intCast]

theorem commonSplitRatios_pos : ∀ r ∈ commonSplitRatios, 0 < r := by decide

/-- Value preservation of the split-adjustment fold for detected splits
(ratio_from = 1, ratio_to a table ratio, so the int() truncation is exact). -/
theorem adjust_foldl_value (buyDate : Int) :
    ∀ (splits : List CorporateAction) (n : Int) (p : Rat),
      (∀ s ∈ splits, s.ratioFrom = 1 ∧ s.ratioTo ∈ commonSplitRatios) →
      ((adjustQuantityForSplits n p buyDate splits).1 : Rat) *
        (adjustQuantityForSplits n p buyDate splits).2 = (n : Rat) * p := by
  intro splits
  induction splits with
  | nil => intro n p _; simp [adjustQuantityForSplits]
  | cons s rest ih =>
    intro n p hs
    obtain ⟨hfrom, hto⟩ := hs s (List.mem_cons_self _ _)
    have hrest : ∀ x ∈ rest, x.ratioFrom = 1 ∧ x.ratioTo ∈ commonSplitRatios :=
      fun x hx => hs x (List.mem_cons_of_mem _ hx)
    have hrpos : 0 < s.ratioTo := commonSplitRatios_pos _ hto
    have hrne : (s.ratioTo : Rat) ≠ 0 := Int.cast_ne_zero.mpr (by omega)
    have hstep : ∀ acc : Int × Rat,
        adjustStep buyDate acc s = acc ∨
        adjustStep buyDate acc s = (acc.1 * s.ratioTo, acc.2 / (s.ratioTo : Rat)) := by
      intro acc
      rw [adjustStep]
      cases hrd : s.recordDate with
      | none => exact Or.inl rfl
      | some rd =>
        dsimp only
        by_cases hlt : buyDate < rd
        · refine Or.inr ?_
          rw [if_pos hlt, hfrom]
          have h1 : ((1 : Int) : Rat) = 1 := by norm_num
          rw [h1, div_one]
          have hcast : (acc.1 : Rat) * (s.ratioTo : Rat) = ((acc.1 * s.ratioTo : Int) : Rat) := by
            push_cast
            ring
          rw [hcast, pyInt_intCast]
        · rw [if_neg hlt]
          exact Or.inl rfl
    rw [adjustQuantityForSplits, List.foldl_cons]
    rcases hstep (n, p) with heq | heq
    · rw [heq]
      exact ih n p hrest
    · rw [heq]
      have := ih (n * s.ratioTo) (p / (s.ratioTo : Rat)) hrest
      rw [adjustQuantityForSplits] at this
      rw [this]
      push_cast
      field_simp
      ring

/-- C6: for every lot (integer quantity, price, buy date before each split's
record date) and detected splits (ratio_from = 1, ratio_to in the common
ratio table), the split adjustment leaves quantity × price unchanged. -/
theorem c6_split_adjustment_preserves_value (qty : Int) (price : Rat) (buyDate : Int)
    (splits : List CorporateAction)
    (h1 : ∀ s ∈ splits, s.ratioFrom = 1 ∧ s.ratioTo ∈ commonSplitRatios)
    (h2 : ∀ s ∈ splits, ∃ rd, s.recordDate = some rd ∧ buyDate < rd) :
    ((adjustQuantityForSplits qty price buyDate splits).1 : Rat) *
      (adjustQuantityForSplits qty price buyDate splits).2 = (qty : Rat) * price :=
  adjust_foldl_value buyDate splits qty price h1

/-- C6 witness: a 1:10 split applied to a lot of 3 units at price 100 keeps
total value 300. -/
theorem c6_witness :
    ((adjustQuantityForSplits 3 100 0 splitsC6).1 : Rat) *
      (adjustQuantityForSplits 3 100 0 splitsC6).2 = (3 : Rat) * 100 :=
  c6_split_adjustment_preserves_value 3 100 0 splitsC6 (by decide)
    (by
      intro s hs
      rw [splitsC6, List.mem_singleton] at hs
      subst hs
      exact ⟨100, rfl, by decide⟩)

theorem caKeyCount_save (db : List CorporateAction) (a' a : ActionData) :
    caKeyCount (saveCorporateAction db a').1 a ≤ max (caKeyCount db a) 1 := by
  cases hfind : db.find? (caKeyMatches a') with
  | some c =>
    rw [saveCorporateAction, hfind]
    exact le_max_left _ _
  | none =>
    rw [saveCorporateAction, hfind]
    simp only [caKeyCount, List.filter_append, List.length_append]
    by_cases hk : caKeyMatches a (newCorporateAction a') = true
    · have hfields : a'.stockId = a.stockId ∧ a'.actionType = a.actionType ∧
          a'.ratioFrom = a.ratioFrom ∧ a'.ratioTo = a.ratioTo := by
        simpa [caKeyMatches, newCorporateAction, Bool.and_eq_true,
          decide_eq_true_eq, and_assoc] using hk
      have hnone : ∀ c ∈ db, ¬ (caKeyMatches a' c = true) :=
        fun c hc => by simpa using List.find?_eq_none.mp hfind c hc
      have hempty : db.filter (caKeyMatches a) = [] := by
        rw [List.filter_eq_nil_iff]
        intro c hc hmatch
        apply hnone c hc
        obtain ⟨hf1, hf2, hf3, hf4⟩ := hfields
        simp only [caKeyMatches, Bool.and_eq_true, decide_eq_true_eq] at hmatch ⊢
        obtain ⟨⟨⟨hm1, hm2⟩, hm3⟩, hm4⟩ := hmatch
        exact ⟨⟨⟨hm1.trans hf1.symm, hm2.trans hf2.symm⟩, hm3.trans hf3.symm⟩,
          hm4.trans hf4.symm⟩
      have hone : List.filter (caKeyMatches a) [newCorporateAction a'] =
          [newCorporateAction a'] := by
        simp [hk]
      rw [hempty, hone]
      simp only [List.length_nil, List.length_cons]
      omega
    · have hfalse : caKeyMatches a (newCorporateAction a') = false := by
        cases hb : caKeyMatches a (newCorporateAction a') with
        | false => rfl
        | true => exact absurd hb hk
      have hzero : List.filter (caKeyMatches a) [newCorporateAction a'] = [] := by
        simp [hfalse]
      rw [hzero]
      simp only [List.length_nil]
      omega

theorem caKeyCount_fold (as : List ActionData) :
    ∀ (db : List CorporateAction) (a : ActionData),
      caKeyCount (as.foldl (fun d x => (saveCorporateAction d x).1) db) a ≤
        max (caKeyCount db a) 1 := by
  induction as with
  | nil => intro db a; exact le_max_left _ _
  | cons x rest ih =>
    intro db a
    rw [List.foldl_cons]
    have h1 := ih (saveCorporateAction db x).1 a
    have h2 := caKeyCount_save db x a
    omega

/-- C9: saving a structural-change proposal is idempotent on the
(stock, type, ratio) key: when a record with the key already exists, saving
returns the first existing record and leaves the database unchanged, and
over every sequence of save calls the number of records with a given key
never exceeds max(initial count, 1) — no duplicate is ever created. -/
theorem c9_save_idempotent :
    (∀ (db : List CorporateAction) (a : ActionData) (c : CorporateAction),
      db.find? (caKeyMatches a) = some c →
      saveCorporateAction db a = (db, c)) ∧
    (∀ (db : List CorporateAction) (as : List ActionData) (a : ActionData),
      caKeyCount (as.foldl (fun d x => (saveCorporateAction d x).1) db) a ≤
        max (caKeyCount db a) 1) := by
  constructor
  · intro db a c h
    rw [saveCorporateAction, h]
  · intro db as a
    exact caKeyCount_fold as db a

/-- C9 witness: re-saving the same split proposal returns the existing row
and two successive saves from an empty database leave exactly one row with
that key. -/
theorem c9_witness :
    saveCorporateAction [newCorporateAction splitSaveData] splitSaveData =
      ([newCorporateAction splitSaveData], newCorporateAction splitSaveData) ∧
    caKeyCount ([splitSaveData, splitSaveData].foldl
        (fun d x => (saveCorporateAction d x).1) []) splitSaveData ≤
      max (caKeyCount [] splitSaveData) 1 := by
  have h := c9_save_idempotent
  exact ⟨h.1 _ _ _ (by decide), h.2 [] [splitSaveData, splitSaveData] splitSaveData⟩

/-- C10: when the Allocation Ledger rebuilds the engine from trade history,
a sell exceeding the available quantity at its point in the replay is
silently skipped: the replay result equals the replay of the same history
with that sell removed (no lots consumed, no clamping, no failure). -/
theorem c10_rebuild_skips_oversell (pre post : List Op) (d q : Int) (p : Rat) (t : Nat)
    (h : (runSkip FIFOEngine.init pre).availableQuantity < q) :
    runSkip FIFOEngine.init (pre ++ Op.sell d q p t :: post) =
      runSkip FIFOEngine.init (pre ++ post) := by
  rw [runSkip] at h
  rw [runSkip, runSkip, List.foldl_append, List.foldl_append, List.foldl_cons]
  have herr : (List.foldl stepSkip FIFOEngine.init pre).processSell d q p t =
      .error .insufficientHoldings := by
    rw [FIFOEngine.processSell]
    simp only [if_pos h]
  have hstep : stepSkip (List.foldl stepSkip FIFOEngine.init pre) (Op.sell d q p t) =
      List.foldl stepSkip FIFOEngine.init pre := by
    simp [stepSkip, herr]
  rw [hstep]

/-- C10 witness: an 8-unit sell against 5 held units is skipped; the rebuild
equals the rebuild without that sell. -/
theorem c10_witness :
    runSkip FIFOEngine.init [Op.buy 0 5 50 1, Op.sell 10 8 60 2, Op.buy 20 4 55 3] =
      runSkip FIFOEngine.init [Op.buy 0 5 50 1, Op.buy 20 4 55 3] :=
  c10_rebuild_skips_oversell [Op.buy 0 5 50 1] [Op.buy 20 4 55 3] 10 8 60 2 (by decide)

theorem allocatedUnits_nil : allocatedUnits [] = 0 := rfl

theorem allocatedUnits_cons (a : Allocation) (l : List Allocation) :
    allocatedUnits (a :: l) = a.quantity + allocatedUnits l := by
  simp [allocatedUnits]

theorem allocatedUnits_append (l1 l2 : List Allocation) :
    allocatedUnits (l1 ++ l2) = allocatedUnits l1 + allocatedUnits l2 := by
  simp [allocatedUnits]

theorem syncLoop_nonpos (l : List Allocation) (excess : Int) (h : excess ≤ 0) :
    syncLoop l excess = (l, 0, 0) := by
  cases l with
  | nil => rfl
  | cons a rest => rw [syncLoop, if_pos h]

/-- The sync loop absorbs exactly the excess when it does not exceed the
total allocated quantity. -/
theorem syncLoop_sum : ∀ (l : List Allocation) (excess : Int), 0 < excess →
    excess ≤ allocatedUnits l →
    allocatedUnits (syncLoop l excess).1 = allocatedUnits l - excess := by
  intro l
  induction l with
  | nil =>
    intro excess h1 h2
    rw [allocatedUnits_nil] at h2
    omega
  | cons a rest ih =>
    intro excess h1 h2
    rw [allocatedUnits_cons] at h2
    rw [syncLoop, if_neg (by omega : ¬ excess ≤ 0)]
    by_cases hq : a.quantity ≤ excess
    · rw [if_pos hq]
      show allocatedUnits (syncLoop rest (excess - a.quantity)).1 =
        allocatedUnits (a :: rest) - excess
      by_cases h0 : 0 < excess - a.quantity
      · rw [ih (excess - a.quantity) h0 (by omega), allocatedUnits_cons]
        omega
      · have hz : excess - a.quantity = 0 := by omega
        rw [hz, syncLoop_nonpos rest 0 le_rfl, allocatedUnits_cons]
        dsimp only
        omega
    · rw [if_neg hq]
      show allocatedUnits ({ a with quantity := a.quantity - excess } :: rest) =
        allocatedUnits (a :: rest) - excess
      rw [allocatedUnits_cons, allocatedUnits_cons]
      show a.quantity - excess + allocatedUnits rest =
        a.quantity + allocatedUnits rest - excess
      omega

/-- Shape of the sync loop's output: it deletes a prefix of the buy-date
ordered list (the oldest allocations) and at most reduces the quantity of
the next one, leaving the rest untouched. -/
theorem syncLoop_shape : ∀ (l : List Allocation) (excess : Int),
    (syncLoop l excess).1 = l.drop (syncLoop l excess).2.2 ∨
    ∃ a rest r, l.drop (syncLoop l excess).2.2 = a :: rest ∧ 0 < r ∧ r < a.quantity ∧
      (syncLoop l excess).1 = { a with quantity := a.quantity - r } :: rest := by
  intro l
  induction l with
  | nil => intro excess; exact Or.inl rfl
  | cons a rest ih =>
    intro excess
    by_cases h0 : excess ≤ 0
    · rw [syncLoop, if_pos h0]
      exact Or.inl rfl
    · rw [syncLoop, if_neg h0]
      by_cases hq : a.quantity ≤ excess
      · rw [if_pos hq]
        rcases ih (excess - a.quantity) with h | ⟨b, rest2, r, hdrop, hr1, hr2, hres⟩
        · refine Or.inl ?_
          show (syncLoop rest (excess - a.quantity)).1 =
            (a :: rest).drop ((syncLoop rest (excess - a.quantity)).2.2 + 1)
          rw [List.drop_succ_cons]
          exact h
        · refine Or.inr ⟨b, rest2, r, ?_, hr1, hr2, hres⟩
          show (a :: rest).drop ((syncLoop rest (excess - a.quantity)).2.2 + 1) = b :: rest2
          rw [List.drop_succ_cons]
          exact hdrop
      · rw [if_neg hq]
        exact Or.inr ⟨a, rest, excess, rfl, by omega, by omega, rfl⟩

/-- A successful create_allocation appends exactly the requested quantity and
that quantity passed the availability check. -/
theorem createAllocation_ok_sum (owners goals : List Int) (e : FIFOEngine)
    (st : List Allocation) (ownerId goalId q : Int) (st2 : List Allocation)
    (al : Allocation)
    (hok : createAllocation owners goals e st ownerId goalId q = .ok (st2, al)) :
    allocatedUnits st2 = allocatedUnits st + q ∧
      q ≤ max 0 (e.availableQuantity - allocatedUnits st) := by
  rw [createAllocation] at hok
  by_cases how : ownerId ∈ owners
  · rw [if_pos how] at hok
    by_cases hg : goalId ∈ goals
    · rw [if_pos hg] at hok
      by_cases hqa : q > max 0 (e.availableQuantity - allocatedUnits st)
      · rw [if_pos hqa] at hok
        exact Except.noConfusion hok
      · rw [if_neg hqa] at hok
        cases hwap : getWeightedAveragePrice e (allocatedUnits st) q with
        | error err =>
          rw [hwap] at hok
          exact Except.noConfusion hok
        | ok res =>
          rw [hwap] at hok
          simp only [Except.ok.injEq, Prod.mk.injEq] at hok
          obtain ⟨hst2, -⟩ := hok
          subst hst2
          refine ⟨?_, by omega⟩
          rw [allocatedUnits_append, allocatedUnits_cons, allocatedUnits_nil]
          show allocatedUnits st + (q + 0) = allocatedUnits st + q
          omega
    · rw [if_neg hg] at hok
      exact Except.noConfusion hok
  · rw [if_neg how] at hok
    exact Except.noConfusion hok

theorem allocatedUnits_set : ∀ (st : List Allocation) (idx : Nat) (a b : Allocation),
    st.get? idx = some a →
    allocatedUnits (st.set idx b) = allocatedUnits st - a.quantity + b.quantity := by
  intro st
  induction st with
  | nil =>
    intro idx a b h
    simp [List.get?] at h
  | cons x rest ih =>
    intro idx a b h
    cases idx with
    | zero =>
      simp only [List.get?] at h
      cases h
      rw [List.set, allocatedUnits_cons, allocatedUnits_cons]
      omega
    | succ n =>
      simp only [List.get?] at h
      rw [List.set, allocatedUnits_cons, allocatedUnits_cons, ih n a b h]
      omega

/-- A successful quantity update keeps total allocated within holdings
(the check re-credits the allocation's own current quantity). -/
theorem updateAllocation_ok_sum (e : FIFOEngine) (st : List Allocation)
    (idx : Nat) (newQ : Int) (st2 : List Allocation)
    (hok : updateAllocationQuantity e st idx newQ = .ok st2) :
    allocatedUnits st2 ≤ e.availableQuantity := by
  rw [updateAllocationQuantity] at hok
  cases hget : st.get? idx with
  | none =>
    rw [hget] at hok
    exact Except.noConfusion hok
  | some alloc =>
    rw [hget] at hok
    dsimp only at hok
    by_cases h1 : newQ ≤ 0
    · rw [if_pos h1] at hok
      exact Except.noConfusion hok
    · rw [if_neg h1] at hok
      by_cases h2 : newQ > e.availableQuantity - allocatedUnits st + alloc.quantity
      · rw [if_pos h2] at hok
        exact Except.noConfusion hok
      · rw [if_neg h2] at hok
        simp only [Except.ok.injEq] at hok
        subst hok
        rw [allocatedUnits_set st idx alloc _ hget]
        show allocatedUnits st - alloc.quantity + newQ ≤ e.availableQuantity
        omega

theorem allocatedUnits_eraseIdx : ∀ (st : List Allocation) (idx : Nat),
    (∀ al ∈ st, 0 ≤ al.quantity) →
    allocatedUnits (st.eraseIdx idx) ≤ allocatedUnits st := by
  intro st
  induction st with
  | nil =>
    intro idx _
    simp [List.eraseIdx]
  | cons x rest ih =>
    intro idx hpos
    cases idx with
    | zero =>
      rw [List.eraseIdx, allocatedUnits_cons]
      have := hpos x (List.mem_cons_self _ _)
      omega
    | succ n =>
      rw [List.eraseIdx, allocatedUnits_cons, allocatedUnits_cons]
      have := ih n (fun al hal => hpos al (List.mem_cons_of_mem _ hal))
      omega

/-- C3: the allocated-quantity invariant. Immediately after sync_with_holdings
the total allocated is at most the engine's available quantity: sync is a
no-op returning (adjusted 0, deleted 0) when allocated ≤ held, and otherwise
reduces the buy-date-ordered allocations oldest first (deleting a prefix,
possibly reducing the next allocation) until total allocated equals total
held. The other documented mutations preserve the invariant: a successful
create_allocation keeps allocated ≤ held when it held before, a successful
quantity update re-establishes it unconditionally, and deleting an
allocation only lowers the total. -/
theorem c3_allocation_invariant (e : FIFOEngine) (st : List Allocation)
    (h0 : 0 ≤ e.availableQuantity) :
    (allocatedUnits st ≤ e.availableQuantity →
      syncWithHoldings e.availableQuantity st = (st, 0, 0)) ∧
    (e.availableQuantity < allocatedUnits st →
      allocatedUnits (syncWithHoldings e.availableQuantity st).1 = e.availableQuantity) ∧
    allocatedUnits (syncWithHoldings e.availableQuantity st).1 ≤ e.availableQuantity ∧
    ((syncWithHoldings e.availableQuantity st).1 =
        st.drop (syncWithHoldings e.availableQuantity st).2.2 ∨
      ∃ a rest r, st.drop (syncWithHoldings e.availableQuantity st).2.2 = a :: rest ∧
        0 < r ∧ r < a.quantity ∧
        (syncWithHoldings e.availableQuantity st).1 =
          { a with quantity := a.quantity - r } :: rest) ∧
    (∀ owners goals ownerId goalId q st2 al,
      allocatedUnits st ≤ e.availableQuantity →
      createAllocation owners goals e st ownerId goalId q = .ok (st2, al) →
      allocatedUnits st2 ≤ e.availableQuantity) ∧
    (∀ idx newQ st2, updateAllocationQuantity e st idx newQ = .ok st2 →
      allocatedUnits st2 ≤ e.availableQuantity) ∧
    (∀ idx, (∀ al ∈ st, 0 ≤ al.quantity) → allocatedUnits st ≤ e.availableQuantity →
      allocatedUnits (st.eraseIdx idx) ≤ e.availableQuantity) := by
  have hsum : e.availableQuantity < allocatedUnits st →
      allocatedUnits (syncWithHoldings e.availableQuantity st).1 = e.availableQuantity := by
    intro hlt
    rw [syncWithHoldings, if_neg (by omega : ¬ allocatedUnits st ≤ e.availableQuantity)]
    rw [syncLoop_sum st (allocatedUnits st - e.availableQuantity) (by omega) (by omega)]
    omega
  refine ⟨?_, hsum, ?_, ?_, ?_, ?_, ?_⟩
  · intro hle
    rw [syncWithHoldings, if_pos hle]
  · by_cases hle : allocatedUnits st ≤ e.availableQuantity
    · rw [syncWithHoldings, if_pos hle]
      exact hle
    · rw [hsum (by omega)]
  · by_cases hle : allocatedUnits st ≤ e.availableQuantity
    · rw [syncWithHoldings, if_pos hle]
      exact Or.inl rfl
    · rw [syncWithHoldings, if_neg hle]
      exact syncLoop_shape st (allocatedUnits st - e.availableQuantity)
  · intro owners goals ownerId goalId q st2 al hinv hok
    obtain ⟨hsum2, hbound⟩ :=
      createAllocation_ok_sum owners goals e st ownerId goalId q st2 al hok
    omega
  · intro idx newQ st2 hok
    exact updateAllocation_ok_sum e st idx newQ st2 hok
  · intro idx hpos hinv
    have := allocatedUnits_eraseIdx st idx hpos
    omega

/-- C3 witness: 150 units allocated against 120 held; sync reduces the total
allocated to exactly the 120 available units. -/
theorem c3_witness :
    allocatedUnits (syncWithHoldings eng120.availableQuantity stC3).1 =
      eng120.availableQuantity ∧
    allocatedUnits (syncWithHoldings eng120.availableQuantity stC3).1 ≤
      eng120.availableQuantity := by
  have h := c3_allocation_invariant eng120 stC3 (by decide)
  exact ⟨h.2.1 (by decide), h.2.2.1⟩

/-- C7: create_allocation validates owner existence first, then goal
existence, then the quantity check against available units; a nonexistent
owner yields InvalidOwner regardless of the quantity, an existing owner
with a nonexistent goal yields InvalidGoal, and an excessive quantity
yields InsufficientUnits; every failure leaves the allocation table
unchanged. -/
theorem c7_create_allocation_validation (owners goals : List Int) (e : FIFOEngine)
    (st : List Allocation) (ownerId goalId quantity : Int) :
    (ownerId ∉ owners →
      createAllocation owners goals e st ownerId goalId quantity =
        .error .invalidOwner) ∧
    (ownerId ∈ owners → goalId ∉ goals →
      createAllocation owners goals e st ownerId goalId quantity =
        .error .invalidGoal) ∧
    (ownerId ∈ owners → goalId ∈ goals →
      max 0 (e.availableQuantity - allocatedUnits st) < quantity →
      createAllocation owners goals e st ownerId goalId quantity =
        .error .insufficientUnits) ∧
    (∀ err, createAllocation owners goals e st ownerId goalId quantity = .error err →
      tryCreateAllocation owners goals e st ownerId goalId quantity = st) := by
  refine ⟨?_, ?_, ?_, ?_⟩
  · intro h
    rw [createAllocation, if_neg h]
  · intro h1 h2
    rw [createAllocation, if_pos h1, if_neg h2]
  · intro h1 h2 h3
    rw [createAllocation, if_pos h1, if_pos h2, if_pos h3]
  · intro err herr
    rw [tryCreateAllocation, herr]

/-- C7 witness: with 120 units held and none allocated, a nonexistent owner
fails with InvalidOwner even though 150 > 120, a nonexistent goal fails with
InvalidGoal, and requesting 150 of 120 fails with InsufficientUnits leaving
the table empty. -/
theorem c7_witness :
    createAllocation [1] [2] eng120 [] 3 2 150 = .error .invalidOwner ∧
    createAllocation [1] [2] eng120 [] 1 5 150 = .error .invalidGoal ∧
    createAllocation [1] [2] eng120 [] 1 2 150 = .error .insufficientUnits ∧
    tryCreateAllocation [1] [2] eng120 [] 1 2 150 = [] := by
  have h1 := c7_create_allocation_validation [1] [2] eng120 [] 3 2 150
  have h2 := c7_create_allocation_validation [1] [2] eng120 [] 1 5 150
  have h3 := c7_create_allocation_validation [1] [2] eng120 [] 1 2 150
  refine ⟨h1.1 (by decide), h2.2.1 (by decide) (by decide),
    h3.2.2.1 (by decide) (by decide) (by decide),
    h3.2.2.2 _ (h3.2.2.1 (by decide) (by decide) (by decide))⟩

/-- Concrete evaluation: detect_stock_split fires on the counterexample pair
with ratio 1:10 and high confidence. -/
theorem detectStockSplit_c8 : detectStockSplit tbC8 pnlC8 = some splitC8 := by
  norm_num [detectStockSplit, valuesMatch, pnlPriceOf, splitRatioScan, commonSplitRatios,
    tbC8, pnlC8, splitC8, abs]

theorem splitRatioScan_some (tbp pp qr : Rat) :
    ∀ (l : List Int) (r : Int), splitRatioScan tbp pp qr l = some r →
      r ∈ l ∧ |qr - (r : Rat)| < 1/100 ∧ |pp - tbp / (r : Rat)| / tbp < 2/100 := by
  intro l
  induction l with
  | nil =>
    intro r h
    exact Option.noConfusion h
  | cons x rest ih =>
    intro r h
    rw [splitRatioScan] at h
    by_cases h1 : |qr - (x : Rat)| < 1/100
    · rw [if_pos h1] at h
      by_cases h2 : |pp - tbp / (x : Rat)| / tbp < 2/100
      · rw [if_pos h2] at h
        cases h
        exact ⟨List.mem_cons_self _ _, h1, h2⟩
      · rw [if_neg h2] at h
        obtain ⟨hm, ha, hb⟩ := ih r h
        exact ⟨List.mem_cons_of_mem _ hm, ha, hb⟩
    · rw [if_neg h1] at h
      obtain ⟨hm, ha, hb⟩ := ih r h
      exact ⟨List.mem_cons_of_mem _ hm, ha, hb⟩

theorem splitRatioScan_exists (tbp pp qr : Rat) :
    ∀ (l : List Int),
      (∃ r ∈ l, |qr - (r : Rat)| < 1/100 ∧ |pp - tbp / (r : Rat)| / tbp < 2/100) →
      ∃ w, splitRatioScan tbp pp qr l = some w := by
  intro l
  induction l with
  | nil =>
    rintro ⟨r, hm, -⟩
    exact absurd hm (List.not_mem_nil r)
  | cons x rest ih =>
    rintro ⟨r, hm, h1, h2⟩
    rw [splitRatioScan]
    by_cases hx1 : |qr - (x : Rat)| < 1/100
    · rw [if_pos hx1]
      by_cases hx2 : |pp - tbp / (x : Rat)| / tbp < 2/100
      · rw [if_pos hx2]
        exact ⟨x, rfl⟩
      · rw [if_neg hx2]
        apply ih
        rcases List.mem_cons.mp hm with heq | hmem
        · subst heq
          exact absurd h2 hx2
        · exact ⟨r, hmem, h1, h2⟩
    · rw [if_neg hx1]
      apply ih
      rcases List.mem_cons.mp hm with heq | hmem
      · subst heq
        exact absurd h1 hx1
      · exact ⟨r, hmem, h1, h2⟩

/-- Elimination form of a detect_stock_split hit. -/
theorem detectStockSplit_eq_some (tb : TradebookEntry) (pnl : TaxPnlEntry)
    (a : SplitAction) (ha : detectStockSplit tb pnl = some a) :
    valuesMatch ((tb.quantity : Rat) * tb.price) pnl.buyValue (2/100) = true ∧
    tb.quantity ≠ 0 ∧
    ∃ r, splitRatioScan tb.price (pnlPriceOf pnl)
        ((pnl.quantity : Rat) / (tb.quantity : Rat)) commonSplitRatios = some r ∧
      a = ⟨"split", pnl.symbol, pnl.isin, 1, r, tb.price, pnlPriceOf pnl, true,
        if |(pnl.quantity : Rat) / (tb.quantity : Rat) - (r : Rat)| < 1/1000
        then "high" else "medium"⟩ := by
  rw [detectStockSplit] at ha
  by_cases hv : valuesMatch ((tb.quantity : Rat) * tb.price) pnl.buyValue (2/100) = true
  · rw [if_pos hv] at ha
    by_cases hq : tb.quantity = 0
    · rw [if_pos hq] at ha
      exact Option.noConfusion ha
    · rw [if_neg hq] at ha
      cases hscan : splitRatioScan tb.price (pnlPriceOf pnl)
          ((pnl.quantity : Rat) / (tb.quantity : Rat)) commonSplitRatios with
      | none =>
        rw [hscan] at ha
        exact Option.noConfusion ha
      | some r =>
        rw [hscan] at ha
        dsimp only at ha
        simp only [Option.some.injEq] at ha
        exact ⟨hv, hq, r, rfl, ha.symm⟩
  · rw [if_neg hv] at ha
    exact Option.noConfusion ha

/-- C8 (amended): detect_stock_split classifies a candidate pair as a split
exactly when the total values match within 2% relative tolerance, the
quantity ratio is strictly within 0.01 of a common table ratio, and the
implied new price differs from oldPrice/ratio by strictly less than 2% of
oldPrice (not of oldPrice/ratio); a hit always emits the split proposal and
a corporate_action discrepancy with severity info in the reconcile branch. -/
theorem c8_split_detection (tb : TradebookEntry) (pnl : TaxPnlEntry) :
    ((∃ a, detectStockSplit tb pnl = some a) ↔
      (valuesMatch ((tb.quantity : Rat) * tb.price) pnl.buyValue (2/100) = true ∧
       tb.quantity ≠ 0 ∧
       ∃ r ∈ commonSplitRatios,
         |(pnl.quantity : Rat) / (tb.quantity : Rat) - (r : Rat)| < 1/100 ∧
         |pnlPriceOf pnl - tb.price / (r : Rat)| / tb.price < 2/100)) ∧
    (∀ a, detectStockSplit tb pnl = some a →
      a.actionType = "split" ∧ a.ratioFrom = 1 ∧ a.ratioTo ∈ commonSplitRatios ∧
      classifyCandidatePair tb pnl =
        .action a ⟨pnl.symbol, pnl.isin, "corporate_action", some a, "info"⟩) := by
  constructor
  · constructor
    · rintro ⟨a, ha⟩
      obtain ⟨hv, hq, r, hscan, -⟩ := detectStockSplit_eq_some tb pnl a ha
      obtain ⟨hm, h1, h2⟩ := splitRatioScan_some _ _ _ _ r hscan
      exact ⟨hv, hq, r, hm, h1, h2⟩
    · rintro ⟨hv, hq, r, hm, h1, h2⟩
      obtain ⟨w, hw⟩ := splitRatioScan_exists _ _ _ _ ⟨r, hm, h1, h2⟩
      refine ⟨⟨"split", pnl.symbol, pnl.isin, 1, w, tb.price, pnlPriceOf pnl, true,
        if |(pnl.quantity : Rat) / (tb.quantity : Rat) - (w : Rat)| < 1/1000
        then "high" else "medium"⟩, ?_⟩
      rw [detectStockSplit, if_pos hv, if_neg hq, hw]
  · intro a ha
    obtain ⟨hv, hq, r, hscan, haeq⟩ := detectStockSplit_eq_some tb pnl a ha
    obtain ⟨hm, h1, -⟩ := splitRatioScan_some _ _ _ _ r hscan
    subst haeq
    refine ⟨rfl, rfl, hm, ?_⟩
    rw [classifyCandidatePair]
    have hne : ¬ (tb.quantity = pnl.quantity ∧
        valuesMatch ((tb.quantity : Rat) * tb.price) pnl.buyValue (1/100) = true) := by
      rintro ⟨hqq, -⟩
      have hcast : ((tb.quantity : Rat)) ≠ 0 := Int.cast_ne_zero.mpr hq
      have hqr : (pnl.quantity : Rat) / (tb.quantity : Rat) = 1 := by
        rw [← hqq]
        exact div_self hcast
      rw [hqr] at h1
      have h2r : (2 : Rat) ≤ (r : Rat) := by
        have hall : ∀ x ∈ commonSplitRatios, (2 : Int) ≤ x := by decide
        exact_mod_cast hall r hm
      have habs : (r : Rat) - 1 ≤ |1 - (r : Rat)| := by
        rw [abs_sub_comm]
        exact le_abs_self _
      linarith
    rw [if_neg hne, ha]

/-- C8 counterexample: a pair the code classifies as a 1:10 split although
the implied new price 10.204 is not within 2% of oldPrice/ratio = 10
(it is only within 2% of oldPrice = 100), refuting the claim as stated. -/
theorem c8_counterexample :
    detectStockSplit tbC8 pnlC8 = some splitC8 ∧ ¬ specSplitCondition tbC8 pnlC8 := by
  refine ⟨detectStockSplit_c8, ?_⟩
  rintro ⟨-, r, hm, h1, h2⟩
  rw [commonSplitRatios] at hm
  simp only [List.mem_cons, List.not_mem_nil, or_false] at hm
  rcases hm with rfl | rfl | rfl | rfl | rfl | rfl | rfl | rfl | rfl <;>
    norm_num [tbC8, pnlC8, pnlPriceOf, abs_le] at h1 h2

/-- C8 witness: the amended classification evaluated on the concrete pair;
the hit carries ratio 1:10 and produces the info-severity corporate_action
discrepancy together with the proposal. -/
theorem c8_witness :
    detectStockSplit tbC8 pnlC8 = some splitC8 ∧
    splitC8.actionType = "split" ∧ splitC8.ratioFrom = 1 ∧
    splitC8.ratioTo ∈ commonSplitRatios ∧
    classifyCandidatePair tbC8 pnlC8 =
      .action splitC8 ⟨"NESTLEIND", none, "corporate_action", some splitC8, "info"⟩ := by
  have h := (c8_split_detection tbC8 pnlC8).2 splitC8 detectStockSplit_c8
  exact ⟨detectStockSplit_c8, h.1, h.2.1, h.2.2.1, h.2.2.2⟩

end EquityTracker
